import Mathlib

/-!
Shallow embedding of the Vigenere cryptanalysis script (src/vigenere.py) and
verification of the frozen claims about it.

Conventions of the embedding:
* python integers are Int, counts and indices are Nat, numpy floats are
  exact rationals;
* a ciphertext is a list of Int letter codes (the normalizer subtracts 65
  from character ordinals and performs no validation, so codes can fall
  outside 0..25);
* division on the rationals is total with x / 0 = 0, which stands in for the
  numpy behavior of producing a NaN score vector on an empty bucket (numpy
  argmax over that vector returns 0, and so does argmax over the all-zero
  vector produced here);
* np.argsort of the main program runs on exactly 16 entries, where numpy
  sorts with a stable insertion sort; a stable ascending argsort is
  equivalently a sort of the indices by the pair (value, index), which is
  how it is written here.
-/

namespace Vigenere

/-- English letter occurrence frequencies, the literal constants of the
source array alpha_freqs. -/
def alpha_freqs : List ℚ :=
  [8167/100000, 1492/100000, 2782/100000, 4253/100000, 12702/100000, 2228/100000,
   2015/100000, 6094/100000, 6966/100000, 153/100000, 772/100000, 4025/100000,
   2406/100000, 6749/100000, 7507/100000, 1929/100000, 95/100000, 5987/100000,
   6327/100000, 9056/100000, 2758/100000, 978/100000, 2360/100000, 150/100000,
   1974/100000, 74/100000]

/-- np.roll right-rotation by i, written as a left rotation by
length - (i mod length). -/
def rollList (l : List ℚ) (i : ℕ) : List ℚ :=
  l.rotate (l.length - i % l.length)

/-- The 26 x 26 matrix of frequency shifts (source freq_shifts), stored as
the list of its columns: column i is np.roll(alpha_freqs, i). -/
def freq_shifts : List (List ℚ) :=
  (List.range 26).map (fun i => rollList alpha_freqs i)

/-- Source get_cipher_text: remove newline characters and map every
remaining character c to ord(c) - 65. No validation is performed. -/
def get_cipher_text (s : String) : List ℤ :=
  (s.data.filter (fun c => c != '\n')).map (fun c => (c.toNat : ℤ) - 65)

/-- Coincidence count for one shift amount (body of source get_shifts):
the number of positions where the ciphertext agrees with
np.roll(ciphertext, s). np.roll moves the entry at j to position j + s,
so position j of the rolled array holds entry (j - s) mod N, written here
as (j + (N - s mod N)) mod N. -/
def coincCount (ct : List ℤ) (s : ℕ) : ℕ :=
  ((List.range ct.length).filter
    (fun j => ct.getD j 0 == ct.getD ((j + (ct.length - s % ct.length)) % ct.length) 0)).length

/-- Source get_shifts: coincidence counts for the shifts 1 .. shift_max,
in that order. -/
def get_shifts (ct : List ℤ) (shift_max : ℕ) : List ℕ :=
  (List.range shift_max).map (fun i => coincCount ct (i + 1))

/-- Python extended slicing l[::step] : every step-th element starting at
the head. -/
def everyNth {α : Type} : List α → ℕ → List α
  | [], _ => []
  | x :: xs, step => x :: everyNth (xs.drop (step - 1)) step
  termination_by l _ => l.length
  decreasing_by simp; omega

/-- Source get_buckets: bucket i is the slice ciphertext[i::key_length]. -/
def get_buckets {α : Type} (ct : List α) (key_length : ℕ) : List (List α) :=
  (List.range key_length).map (fun i => everyNth (ct.drop i) key_length)

/-- Re-interleave buckets by position: element i is drawn from bucket
i mod L at offset i div L. Statement device for the partition claim. -/
def reinterleave (bs : List (List ℤ)) (n : ℕ) : List ℤ :=
  (List.range n).map (fun i => (bs.getD (i % bs.length) []).getD (i / bs.length) 0)

/-- np.argmax: the index of the first occurrence of the maximum entry. -/
def argmaxIdx : List ℚ → ℕ
  | [] => 0
  | [_] => 0
  | x :: y :: ys =>
    if x < (y :: ys).getD (argmaxIdx (y :: ys)) 0 then argmaxIdx (y :: ys) + 1 else 0

/-- Dot product of two rational vectors. -/
def dotQ (v w : List ℚ) : ℚ := (List.zipWith (fun a b => a * b) v w).sum

/-- One row of the source array cipher_freqs (get_key, line 91): entry c is
np.sum(ct[ct == c]) / len(ct), that is, the sum of the VALUES of the
entries equal to c, divided by the bucket length. -/
def freqRow (ct : List ℤ) : List ℚ :=
  (List.range 26).map
    (fun (c : ℕ) => ((ct.filter (fun x => x == (c : ℤ))).sum : ℚ) / (ct.length : ℚ))

/-- Source cipher_freqs: one row per bucket. -/
def cipher_freqs (buckets : List (List ℤ)) : List (List ℚ) :=
  buckets.map freqRow

/-- Product of a matrix given by rows with a matrix given by its columns:
entry (b, i) is the dot product of row b with column i. Models line 92 of
the source, R = cipher_freqs.dot(freq_shifts). -/
def matMulCols (W cols : List (List ℚ)) : List (List ℚ) :=
  W.map (fun row => cols.map (fun col => dotQ row col))

/-- Source get_key: the argmax of each row of R. -/
def get_key (buckets : List (List ℤ)) : List ℕ :=
  (matMulCols (cipher_freqs buckets) freq_shifts).map argmaxIdx

/-- The score vector of one bucket: its row of R. -/
def scoresOf (ct : List ℤ) : List ℚ :=
  freq_shifts.map (fun col => dotQ (freqRow ct) col)

/-- Source decode: plaintext i = (26 + ciphertext i - key (i mod L)) mod 26.
The euclidean mod of Lean agrees with the python mod on the positive
modulus 26. -/
def decode (ciphertext key : List ℤ) : List ℤ :=
  (List.range ciphertext.length).map
    (fun i => (26 + ciphertext.getD i 0 - key.getD (i % key.length) 0) % 26)

/-- Modelled from the spec: Vigenere encryption (the source repository has
no encoder); ciphertext i = (P i + K (i mod L)) mod 26. -/
def vigenereEncrypt (p key : List ℤ) : List ℤ :=
  (List.range p.length).map
    (fun i => (p.getD i 0 + key.getD (i % key.length) 0) % 26)

/-- Modelled from the spec: the coincidence count at shift s as the number
of positions i with ciphertext i equal to ciphertext ((i + s) mod N). -/
def coincCountSpec (ct : List ℤ) (s : ℕ) : ℕ :=
  ((List.range ct.length).filter
    (fun i => ct.getD i 0 == ct.getD ((i + s) % ct.length) 0)).length

/-- Value-then-index order on indices: sorting List.range n ascending by
this relation is exactly a stable ascending argsort of counts (equal counts
keep their index order), which is the behavior of np.argsort here (numpy
sorts arrays of at most 16 entries with a stable insertion sort, and the
main program always sorts exactly 16 counts). -/
def rLex (counts : List ℕ) (i j : ℕ) : Prop :=
  counts.getD i 0 < counts.getD j 0 ∨ (counts.getD i 0 = counts.getD j 0 ∧ i ≤ j)

instance (counts : List ℕ) : DecidableRel (rLex counts) := fun i j =>
  inferInstanceAs (Decidable
    (counts.getD i 0 < counts.getD j 0 ∨ (counts.getD i 0 = counts.getD j 0 ∧ i ≤ j)))

instance (counts : List ℕ) : IsTrans ℕ (rLex counts) :=
  ⟨fun a b c hab hbc => by unfold rLex at *; omega⟩

instance (counts : List ℕ) : IsTotal ℕ (rLex counts) :=
  ⟨fun a b => by unfold rLex; omega⟩

/-- np.argsort(counts)[::-1] of the main program. -/
def argsortDesc (counts : List ℕ) : List ℕ :=
  (List.insertionSort (rLex counts) (List.range counts.length)).reverse

/-- The shift amounts in printed order: the index i is reported as
shift i + 1. -/
def printedShifts (counts : List ℕ) : List ℕ :=
  (argsortDesc counts).map (fun i => i + 1)

/-- The malformed input used to exercise the normalizer: a lowercase
letter, a digit and a newline among uppercase letters. -/
def badInput : String := "Az0\nB"

/-! ### Helper lemmas -/

/-- Reading a mapped range list below its length. -/
theorem getD_range_map {α : Type} (f : ℕ → α) (n i : ℕ) (d : α) (h : i < n) :
    ((List.range n).map f).getD i d = f i := by
  simp [List.getD_eq_getElem?_getD, List.getElem?_map, List.getElem?_range h]

/-- Index characterization of the slicing function. -/
theorem everyNth_getElem? {α : Type} (L : ℕ) (hL : 1 ≤ L) :
    ∀ (k : ℕ) (l : List α), (everyNth l L)[k]? = l[k * L]? := by
  intro k
  induction k with
  | zero =>
    intro l
    cases l with
    | nil => simp [everyNth]
    | cons x xs => simp [everyNth]
  | succ k ih =>
    intro l
    cases l with
    | nil => simp [everyNth]
    | cons x xs =>
      simp only [everyNth, List.getElem?_cons_succ]
      rw [ih, List.getElem?_drop]
      have h1 : (k + 1) * L = ((L - 1) + k * L) + 1 := by
        rw [Nat.succ_mul]
        omega
      rw [h1, List.getElem?_cons_succ]

/-- Rolling an index forward by s and back by N - s mod N is the identity
below N. -/
theorem mod_roll_cancel (N s a : ℕ) (hN : 0 < N) (ha : a < N) :
    ((a + s) % N + (N - s % N)) % N = a := by
  rw [Nat.mod_add_mod]
  have hs : s ≡ s % N [MOD N] := (Nat.mod_modEq s N).symm
  have h4 : (a + s + (N - s % N)) % N = (a + s % N + (N - s % N)) % N :=
    Nat.ModEq.add_right _ (Nat.ModEq.add_left a hs)
  have h3 : a + s % N + (N - s % N) = a + N := by
    have h5 := Nat.mod_lt s hN
    omega
  rw [h4, h3, Nat.add_mod_right, Nat.mod_eq_of_lt ha]

/-- Rolling an index back by N - s mod N and forward by s is the identity
below N. -/
theorem mod_roll_cancel' (N s a : ℕ) (hN : 0 < N) (ha : a < N) :
    ((a + (N - s % N)) % N + s) % N = a := by
  rw [Nat.mod_add_mod]
  have hs : s ≡ s % N [MOD N] := (Nat.mod_modEq s N).symm
  have h4 : (a + (N - s % N) + s) % N = (a + (N - s % N) + s % N) % N :=
    Nat.ModEq.add_left _ hs
  have h3 : a + (N - s % N) + s % N = a + N := by
    have h5 := Nat.mod_lt s hN
    omega
  rw [h4, h3, Nat.add_mod_right, Nat.mod_eq_of_lt ha]

/-- The length of a filtered range list as a Finset cardinality. -/
theorem length_filter_range (n : ℕ) (p : ℕ → Bool) :
    ((List.range n).filter p).length = ((Finset.range n).filter (fun x => p x = true)).card := by
  induction n with
  | zero => rfl
  | succ k ih =>
    rw [List.range_succ, List.filter_append, List.length_append, Finset.range_succ,
      Finset.filter_insert]
    by_cases h : p k = true
    · rw [if_pos h, Finset.card_insert_of_not_mem (by simp)]
      simp [h, ih]
    · rw [if_neg h]
      simp [h, ih]

/-- The rolled self-comparison of the source counts the same positions as
the forward-shift comparison of the spec, by the translation bijection. -/
theorem coincCount_eq_spec (ct : List ℤ) (s : ℕ) (h : ct ≠ []) :
    coincCount ct s = coincCountSpec ct s := by
  have hN : 0 < ct.length := List.length_pos.mpr h
  unfold coincCount coincCountSpec
  rw [length_filter_range, length_filter_range]
  apply Finset.card_nbij' (fun j => (j + (ct.length - s % ct.length)) % ct.length)
    (fun i => (i + s) % ct.length)
  · intro a ha
    simp only [Finset.mem_filter, Finset.mem_range, beq_iff_eq, decide_eq_true_eq] at ha ⊢
    refine ⟨Nat.mod_lt _ hN, ?_⟩
    rw [mod_roll_cancel' ct.length s a hN ha.1]
    exact ha.2.symm
  · intro a ha
    simp only [Finset.mem_filter, Finset.mem_range, beq_iff_eq, decide_eq_true_eq] at ha ⊢
    refine ⟨Nat.mod_lt _ hN, ?_⟩
    rw [mod_roll_cancel ct.length s a hN ha.1]
    exact ha.2.symm
  · intro a ha
    simp only [Finset.mem_filter, Finset.mem_range] at ha
    exact mod_roll_cancel' ct.length s a hN ha.1
  · intro a ha
    simp only [Finset.mem_filter, Finset.mem_range] at ha
    exact mod_roll_cancel ct.length s a hN ha.1

/-- The first-argmax index is inside the list. -/
theorem argmaxIdx_lt_length : ∀ (l : List ℚ), l ≠ [] → argmaxIdx l < l.length
  | [], h => absurd rfl h
  | [_], _ => by simp [argmaxIdx]
  | x :: y :: ys, _ => by
    have ih := argmaxIdx_lt_length (y :: ys) (by simp)
    simp only [argmaxIdx]
    by_cases hx : x < (y :: ys).getD (argmaxIdx (y :: ys)) 0
    · rw [if_pos hx]
      simpa using Nat.succ_lt_succ ih
    · rw [if_neg hx]
      simp

/-- Every entry is at most the entry at the first-argmax index. -/
theorem argmaxIdx_le : ∀ (l : List ℚ) (k : ℕ), k < l.length →
    l.getD k 0 ≤ l.getD (argmaxIdx l) 0
  | [], k, hk => by simp at hk
  | [x], k, hk => by
    have hk0 : k = 0 := by simpa using hk
    subst hk0
    simp [argmaxIdx]
  | x :: y :: ys, k, hk => by
    have ih := fun k hk => argmaxIdx_le (y :: ys) k hk
    simp only [argmaxIdx]
    by_cases hx : x < (y :: ys).getD (argmaxIdx (y :: ys)) 0
    · rw [if_pos hx, List.getD_cons_succ]
      cases k with
      | zero => rw [List.getD_cons_zero]; exact le_of_lt hx
      | succ k => rw [List.getD_cons_succ]; exact ih k (by simpa using hk)
    · rw [if_neg hx, List.getD_cons_zero]
      push_neg at hx
      cases k with
      | zero => rw [List.getD_cons_zero]
      | succ k => rw [List.getD_cons_succ]; exact le_trans (ih k (by simpa using hk)) hx

/-- Entries strictly before the first-argmax index are strictly below the
maximum: ties select the smallest index. -/
theorem argmaxIdx_first : ∀ (l : List ℚ) (k : ℕ), k < argmaxIdx l →
    l.getD k 0 < l.getD (argmaxIdx l) 0
  | [], k, hk => by simp [argmaxIdx] at hk
  | [_], k, hk => by simp [argmaxIdx] at hk
  | x :: y :: ys, k, hk => by
    have ih := fun k hk => argmaxIdx_first (y :: ys) k hk
    by_cases hx : x < (y :: ys).getD (argmaxIdx (y :: ys)) 0
    · simp only [argmaxIdx, if_pos hx] at hk ⊢
      rw [List.getD_cons_succ]
      cases k with
      | zero => rw [List.getD_cons_zero]; exact hx
      | succ k => rw [List.getD_cons_succ]; exact ih k (Nat.lt_of_succ_lt_succ hk)
    · simp only [argmaxIdx, if_neg hx] at hk
      exact absurd hk (Nat.not_lt_zero k)

/-- Reading a rolled list is reading the original at a translated index. -/
theorem rollList_getD (l : List ℚ) (i j : ℕ) (hi : i < l.length) (hj : j < l.length) :
    (rollList l i).getD j 0 = l.getD ((j + l.length - i) % l.length) 0 := by
  rw [rollList, List.getD_eq_getElem?_getD,
    List.getElem?_rotate (by simpa using hj), List.getD_eq_getElem?_getD]
  have harg : (j + (l.length - i % l.length)) % l.length = (j + l.length - i) % l.length := by
    rw [Nat.mod_eq_of_lt hi]
    congr 1
    omega
  rw [harg]

/-- The first argmax of a constant zero vector is index 0. -/
theorem argmaxIdx_replicate_zero (n : ℕ) : argmaxIdx (List.replicate n 0) = 0 := by
  by_contra h
  have h0 : 0 < argmaxIdx (List.replicate n 0) := Nat.pos_of_ne_zero h
  have h1 := argmaxIdx_first (List.replicate n 0) 0 h0
  have e : ∀ k, (List.replicate n (0 : ℚ)).getD k 0 = 0 := by
    intro k
    simp only [List.getD_eq_getElem?_getD, List.getElem?_replicate]
    split <;> simp
  rw [e, e] at h1
  exact absurd h1 (lt_irrefl 0)

/-- Dot product with a zero vector on the left is zero. -/
theorem dotQ_replicate_zero (n : ℕ) (w : List ℚ) : dotQ (List.replicate n 0) w = 0 := by
  induction n generalizing w with
  | zero => simp [dotQ]
  | succ n ih =>
    cases w with
    | nil => simp [dotQ]
    | cons b bs =>
      have h := ih bs
      simp only [dotQ, List.replicate_succ, List.zipWith_cons_cons, List.sum_cons] at h ⊢
      simp [h]

/-- On a bucket whose entries are all the letter code 0, every numerator
np.sum(ct[ct == c]) vanishes, so the row the code computes is all zeros,
whatever the bucket length is (including the empty bucket, where the
division is 0 / 0). -/
theorem freqRow_all_zero (ct : List ℤ) (h : ∀ x ∈ ct, x = 0) :
    freqRow ct = List.replicate 26 0 := by
  apply List.ext_getElem
  · simp [freqRow]
  · intro n h1 h2
    simp only [freqRow, List.getElem_map, List.getElem_range, List.getElem_replicate]
    have hsum : (ct.filter
        (fun x => x == (((List.range 26).get ⟨n, by simpa [freqRow] using h1⟩ : ℕ) : ℤ))).sum = 0 := by
      apply List.sum_eq_zero
      intro x hx
      exact h x (List.mem_of_mem_filter hx)
    simp only [List.get_eq_getElem, List.getElem_range] at hsum
    rw [hsum]
    simp

/-! ### Claims -/

/-- Claim C1: the claim states that entry c of the empirical vector is the
COUNT of letter code c in the bucket divided by the bucket length, summing
to 1 on a non-empty bucket. The code instead computes np.sum(ct[ct == c]),
the sum of the VALUES equal to c. On the one-letter bucket [0] the claim
demands entry 0 = 1 and total 1, but the code yields the all-zero vector:
entry 0 is 0 and the sum is 0. -/
theorem c1_empirical_vector_code_eval :
    (freqRow [(0 : ℤ)]).getD 0 0 = 0 ∧ (freqRow [(0 : ℤ)]).sum = 0 := by
  have h0 : freqRow [(0 : ℤ)] = List.replicate 26 0 := freqRow_all_zero _ (by simp)
  rw [h0]
  constructor
  · simp
  · simp

/-- Claim C2: encrypting any plaintext of letter codes with any non-empty
key of letter codes and decoding with the same key returns the plaintext,
for every plaintext length. -/
theorem c2_roundtrip (p key : List ℤ) (hkey : key ≠ [])
    (hp : ∀ x ∈ p, 0 ≤ x ∧ x < 26) (hk : ∀ x ∈ key, 0 ≤ x ∧ x < 26) :
    decode (vigenereEncrypt p key) key = p := by
  apply List.ext_getElem
  · simp [decode, vigenereEncrypt]
  · intro i h1 h2
    simp only [decode, List.getElem_map, List.getElem_range]
    have henc : (vigenereEncrypt p key).getD i 0
        = (p.getD i 0 + key.getD (i % key.length) 0) % 26 := by
      simp only [vigenereEncrypt]
      exact getD_range_map _ _ _ _ h2
    rw [henc]
    have hpi : p.getD i 0 = p[i] := by
      simp [List.getD_eq_getElem?_getD, List.getElem?_eq_getElem h2]
    have hmem := hp p[i] (List.getElem_mem h2)
    rw [hpi]
    omega

/-- Witness for C2 at a concrete plaintext and key of coprime lengths. -/
theorem c2_roundtrip_witness :
    decode (vigenereEncrypt [0, 1, 25] [3, 7]) [3, 7] = [0, 1, 25] :=
  c2_roundtrip [0, 1, 25] [3, 7] (by decide) (by decide) (by decide)

/-- Claim C3: the profile has exactly the shifts 1 .. shiftMax, and the
count stored for shift s (at position s - 1) equals the number of positions
i with ciphertext i equal to ciphertext ((i + s) mod N). -/
theorem c3_coincidence_profile (ct : List ℤ) (m s : ℕ) (hct : ct ≠ [])
    (hs1 : 1 ≤ s) (hs2 : s ≤ m) :
    (get_shifts ct m).length = m ∧ (get_shifts ct m).getD (s - 1) 0 = coincCountSpec ct s := by
  refine ⟨by simp [get_shifts], ?_⟩
  have h1 : s - 1 < m := by omega
  have h2 : (get_shifts ct m).getD (s - 1) 0 = coincCount ct ((s - 1) + 1) := by
    simp only [get_shifts]
    exact getD_range_map _ _ _ _ h1
  rw [h2, show s - 1 + 1 = s by omega]
  exact coincCount_eq_spec ct s hct

/-- Witness for C3 on the ciphertext [0, 1, 0] at shift 1. -/
theorem c3_coincidence_profile_witness :
    (get_shifts [(0 : ℤ), 1, 0] 2).length = 2 ∧
      (get_shifts [(0 : ℤ), 1, 0] 2).getD (1 - 1) 0 = coincCountSpec [(0 : ℤ), 1, 0] 1 :=
  c3_coincidence_profile [0, 1, 0] 2 1 (by decide) (by decide) (by decide)

/-- Counterexample to claim C4: on the ciphertext AAA every one of the 16
shifts has coincidence count 3, and the printed order is shift 16 first
down to shift 1 last; in particular shifts 2 and 1 have equal counts and
the larger shift 2 is printed before the smaller shift 1, contradicting
the claimed smaller-shift-first tie break. -/
theorem c4_tie_break_counterexample :
    printedShifts (get_shifts [(0 : ℤ), 0, 0] 16) =
      [16, 15, 14, 13, 12, 11, 10, 9, 8, 7, 6, 5, 4, 3, 2, 1] ∧
    (get_shifts [(0 : ℤ), 0, 0] 16).getD 0 0 = (get_shifts [(0 : ℤ), 0, 0] 16).getD 1 0 := by
  decide

/-- Claim C4 as amended: the printed coincidence profile is sorted by
descending count, and on equal counts the LARGER shift is printed first. -/
theorem c4_sorted_desc_ties_larger_first (ct : List ℤ) (m : ℕ) :
    List.Pairwise
      (fun s t => (get_shifts ct m).getD (t - 1) 0 < (get_shifts ct m).getD (s - 1) 0 ∨
        ((get_shifts ct m).getD (s - 1) 0 = (get_shifts ct m).getD (t - 1) 0 ∧ t < s))
      (printedShifts (get_shifts ct m)) := by
  generalize get_shifts ct m = counts
  have hsorted : List.Pairwise (rLex counts)
      (List.insertionSort (rLex counts) (List.range counts.length)) :=
    List.sorted_insertionSort _ _
  have hperm := List.perm_insertionSort (rLex counts) (List.range counts.length)
  have hnodup : (List.insertionSort (rLex counts) (List.range counts.length)).Nodup :=
    hperm.nodup_iff.mpr (List.nodup_range _)
  have hpair := List.Pairwise.and hsorted hnodup
  have hrev : List.Pairwise (fun a b => rLex counts b a ∧ b ≠ a) (argsortDesc counts) := by
    unfold argsortDesc
    exact List.pairwise_reverse.mpr hpair
  unfold printedShifts
  rw [List.pairwise_map]
  refine List.Pairwise.imp ?_ hrev
  intro a b hab
  simp only [Nat.add_sub_cancel]
  unfold rLex at hab
  omega

/-- Claim C5: entry (j, i) of the shift correlation matrix is the reference
frequency at index (j - i) mod 26, written (j + 26 - i) mod 26; that is,
column i is the reference distribution rotated right by i. -/
theorem c5_matrix_columns_are_rotations (i j : Fin 26) :
    (freq_shifts.getD i.val []).getD j.val 0 =
      alpha_freqs.getD ((j.val + 26 - i.val) % 26) 0 := by
  have hlen : alpha_freqs.length = 26 := rfl
  have h1 : freq_shifts.getD i.val [] = rollList alpha_freqs i.val := by
    simp only [freq_shifts]
    exact getD_range_map _ _ _ _ i.isLt
  rw [h1, rollList_getD alpha_freqs i.val j.val (by rw [hlen]; exact i.isLt)
    (by rw [hlen]; exact j.isLt), hlen]

/-- Witness for C5 at column 1, row 0: the entry is the reference frequency
of letter Z. -/
theorem c5_matrix_columns_witness :
    (freq_shifts.getD 1 []).getD 0 0 = alpha_freqs.getD ((0 + 26 - 1) % 26) 0 :=
  c5_matrix_columns_are_rotations ⟨1, by decide⟩ ⟨0, by decide⟩

/-- Claim C6 names required behavior absent from the code: on the
ciphertext A with key length 2 the second bucket is empty, and the code
raises nothing (it has no EmptyBucketError); the empty-bucket row is
0 / 0 entrywise (NaN in numpy, 0 in this rational embedding), argmax over
it returns 0, and get_key returns the value [0, 0]. -/
theorem c6_empty_bucket_returns_value :
    get_key (get_buckets [(0 : ℤ)] 2) = [0, 0] := by
  have hb : get_buckets [(0 : ℤ)] 2 = [[0], []] := by
    simp [get_buckets, List.range_succ, everyNth]
  rw [hb]
  have h0 : freqRow [(0 : ℤ)] = List.replicate 26 0 := freqRow_all_zero _ (by simp)
  have h1 : freqRow ([] : List ℤ) = List.replicate 26 0 := freqRow_all_zero _ (by simp)
  have hdot : freq_shifts.map (fun col => dotQ (List.replicate 26 0) col) =
      List.replicate freq_shifts.length 0 := by
    rw [show (fun col => dotQ (List.replicate 26 0) col) = (fun _ : List ℚ => (0 : ℚ)) from
      funext (fun col => dotQ_replicate_zero 26 col)]
    exact List.map_const' _ _
  unfold get_key matMulCols cipher_freqs
  simp only [List.map_cons, List.map_nil, h0, h1, hdot, argmaxIdx_replicate_zero]

/-- Claim C7 names required behavior absent from the code: normalizing the
string with a lowercase z, a digit 0 and a newline raises nothing (the code
has no InvalidInputError); the newline is stripped and the remaining
characters map to ord(c) - 65, silently producing the out-of-range letter
codes 57 and -17. -/
theorem c7_invalid_input_returns_codes :
    get_cipher_text badInput = [0, 57, -17, 1] := by decide

/-- Claim C8: the recovered shift of bucket i is the argmax of its score
vector: it is below 26, every score is at most the score at the recovered
shift, and every strictly smaller index has a strictly smaller score, so
ties select the smallest index. -/
theorem c8_recovered_shift_first_argmax (buckets : List (List ℤ)) (i : ℕ)
    (hi : i < buckets.length) (hb : buckets.getD i [] ≠ []) :
    (get_key buckets).getD i 0 = argmaxIdx (scoresOf (buckets.getD i [])) ∧
    argmaxIdx (scoresOf (buckets.getD i [])) < 26 ∧
    (∀ k, k < 26 → (scoresOf (buckets.getD i [])).getD k 0 ≤
      (scoresOf (buckets.getD i [])).getD (argmaxIdx (scoresOf (buckets.getD i []))) 0) ∧
    (∀ k, k < argmaxIdx (scoresOf (buckets.getD i [])) →
      (scoresOf (buckets.getD i [])).getD k 0 <
        (scoresOf (buckets.getD i [])).getD (argmaxIdx (scoresOf (buckets.getD i []))) 0) := by
  have hlenR : (scoresOf (buckets.getD i [])).length = 26 := by
    simp [scoresOf, freq_shifts]
  have hneR : scoresOf (buckets.getD i []) ≠ [] := by
    intro hcon
    rw [hcon] at hlenR
    simp at hlenR
  have hbd : buckets.getD i [] = buckets[i] := by
    simp [List.getD_eq_getElem?_getD, List.getElem?_eq_getElem hi]
  have hkey : (get_key buckets).getD i 0 = argmaxIdx (scoresOf (buckets.getD i [])) := by
    rw [hbd]
    have hi2 : i < (matMulCols (cipher_freqs buckets) freq_shifts).length := by
      simpa [matMulCols, cipher_freqs] using hi
    simp only [get_key, List.getD_eq_getElem?_getD, List.getElem?_map,
      List.getElem?_eq_getElem hi2, Option.map_some', Option.getD_some]
    congr 1
    simp only [matMulCols, cipher_freqs, List.getElem_map, scoresOf]
  refine ⟨hkey, ?_, ?_, ?_⟩
  · have h3 := argmaxIdx_lt_length _ hneR
    rwa [hlenR] at h3
  · intro k hk
    exact argmaxIdx_le _ k (by rw [hlenR]; exact hk)
  · intro k hk
    exact argmaxIdx_first _ k hk

/-- Witness for C8 on the bucket list with the single bucket [0]. -/
theorem c8_recovered_shift_witness :
    (get_key [[(0 : ℤ)]]).getD 0 0 = argmaxIdx (scoresOf ([[(0 : ℤ)]].getD 0 [])) ∧
    argmaxIdx (scoresOf ([[(0 : ℤ)]].getD 0 [])) < 26 ∧
    (∀ k, k < 26 → (scoresOf ([[(0 : ℤ)]].getD 0 [])).getD k 0 ≤
      (scoresOf ([[(0 : ℤ)]].getD 0 [])).getD (argmaxIdx (scoresOf ([[(0 : ℤ)]].getD 0 []))) 0) ∧
    (∀ k, k < argmaxIdx (scoresOf ([[(0 : ℤ)]].getD 0 [])) →
      (scoresOf ([[(0 : ℤ)]].getD 0 [])).getD k 0 <
        (scoresOf ([[(0 : ℤ)]].getD 0 [])).getD (argmaxIdx (scoresOf ([[(0 : ℤ)]].getD 0 []))) 0) :=
  c8_recovered_shift_first_argmax [[(0 : ℤ)]] 0 (by decide) (by decide)

/-- Claim C9: there are exactly L buckets; bucket p holds precisely the
ciphertext entries at indices p, p + L, p + 2L, ... in order; distinct
buckets draw from disjoint index sets; and re-interleaving the buckets by
position reconstructs the ciphertext. -/
theorem c9_bucket_partition (ct : List ℤ) (L : ℕ) (hL : 1 ≤ L) :
    (get_buckets ct L).length = L ∧
    (∀ p, p < L → ∀ k, ((get_buckets ct L).getD p [])[k]? = ct[p + k * L]?) ∧
    (∀ p q k m, p < L → q < L → p + k * L = q + m * L → p = q ∧ k = m) ∧
    reinterleave (get_buckets ct L) ct.length = ct := by
  have hlen : (get_buckets ct L).length = L := by simp [get_buckets]
  have hbucket : ∀ p, p < L → ∀ k, ((get_buckets ct L).getD p [])[k]? = ct[p + k * L]? := by
    intro p hp k
    have h1 : (get_buckets ct L).getD p [] = everyNth (ct.drop p) L := by
      simp only [get_buckets]
      exact getD_range_map _ _ _ _ hp
    rw [h1, everyNth_getElem? L hL k, List.getElem?_drop]
  refine ⟨hlen, hbucket, ?_, ?_⟩
  · intro p q k m hp hq heq
    have h1 : p % L = q % L := by
      rw [← Nat.add_mul_mod_self_right p k L, heq, Nat.add_mul_mod_self_right]
    rw [Nat.mod_eq_of_lt hp, Nat.mod_eq_of_lt hq] at h1
    subst h1
    have h2 : k * L = m * L := by omega
    exact ⟨rfl, Nat.eq_of_mul_eq_mul_right (by omega) h2⟩
  · apply List.ext_getElem
    · simp [reinterleave]
    · intro n h1 h2
      simp only [reinterleave, List.getElem_map, List.getElem_range]
      rw [hlen]
      have hbn := hbucket (n % L) (Nat.mod_lt n (by omega)) (n / L)
      rw [Nat.mod_add_div' n L] at hbn
      rw [List.getD_eq_getElem?_getD, hbn, List.getElem?_eq_getElem h2]
      rfl

/-- Witness for C9 on the ciphertext [5, 6, 7] with key length 2. -/
theorem c9_bucket_partition_witness :
    (get_buckets [(5 : ℤ), 6, 7] 2).length = 2 ∧
    (∀ p, p < 2 → ∀ k, ((get_buckets [(5 : ℤ), 6, 7] 2).getD p [])[k]? =
      [(5 : ℤ), 6, 7][p + k * 2]?) ∧
    (∀ p q k m, p < 2 → q < 2 → p + k * 2 = q + m * 2 → p = q ∧ k = m) ∧
    reinterleave (get_buckets [(5 : ℤ), 6, 7] 2) ([(5 : ℤ), 6, 7]).length = [(5 : ℤ), 6, 7] :=
  c9_bucket_partition [5, 6, 7] 2 (by decide)

/-- Claim C10: decode maps any integer inputs (also out of range ones) to
letter codes in [0, 25], for any non-empty key. -/
theorem c10_decode_in_range (ct key : List ℤ) (hkey : key ≠ []) :
    ∀ x ∈ decode ct key, 0 ≤ x ∧ x ≤ 25 := by
  intro x hx
  simp only [decode, List.mem_map, List.mem_range] at hx
  obtain ⟨i, hi, rfl⟩ := hx
  omega

/-- Witness for C10 on the out-of-range ciphertext [100, -5] and key [3]. -/
theorem c10_decode_in_range_witness :
    0 ≤ (decode [(100 : ℤ), -5] [3]).getD 0 0 ∧ (decode [(100 : ℤ), -5] [3]).getD 0 0 ≤ 25 :=
  c10_decode_in_range [100, -5] [3] (by decide) ((decode [(100 : ℤ), -5] [3]).getD 0 0) (by decide)

end Vigenere
